import Mathlib

/-!
Shallow embedding of the `tags` Go library: the `Tag` value type
(construction, validation, string encoding/decoding) and the `TagGroup`
container (membership, matching, mutation, ordering).

Modelling conventions:
* Go strings are Lean `String`s; Go slices are Lean `List`s.
* The Go map `map[string]Tag` is modelled as an association list
  `List (String × Tag)`.  Go map iteration order is unspecified; the model
  fixes one deterministic representative order (insertion order, with
  in-place replacement on key collision).
* Fallible Go functions returning `(T, error)` become `Except String T`.
* `strings.TrimSpace` trims Unicode whitespace in Go; the model trims the
  ASCII whitespace characters that the development exercises.
* `strings.Split` is modelled by `goSplit` below, including Go's behaviour
  for the empty separator (split into single-character strings).
-/

namespace Tags

/-- The `Tag` struct: a name together with a list of values
(`Tag { name string; values []string }`).  An empty value list is a label. -/
structure Tag where
  name : String
  values : List String
deriving DecidableEq

/-- The `TagGroup` struct: a group name and a name-keyed mapping of tags
(`TagGroup { name string; tags map[string]Tag }`). -/
structure TagGroup where
  name : String
  tags : List (String × Tag)
deriving DecidableEq

/-- ASCII whitespace test used by the model of `strings.TrimSpace`. -/
def isSpaceChar (c : Char) : Bool :=
  c == ' ' || c == '\t' || c == '\n' || c == '\r'

/-- Model of Go `strings.TrimSpace`: drop leading and trailing whitespace. -/
def trimSpace (s : String) : String :=
  String.mk (((s.toList.dropWhile isSpaceChar).reverse.dropWhile isSpaceChar).reverse)

/-- Core of Go `strings.Split` for a non-empty separator, written with a
fuel argument so that the recursion is structural; `fuel ≥ length of the
input` always suffices because every step consumes at least one character. -/
def goSplitCore (sep : List Char) : Nat → List Char → List (List Char)
  | _, [] => [[]]
  | 0, l => [l]
  | fuel + 1, c :: cs =>
    if sep.isPrefixOf (c :: cs) then
      [] :: goSplitCore sep fuel (List.drop (sep.length - 1) cs)
    else
      match goSplitCore sep fuel cs with
      | [] => [[c]]
      | p :: ps => (c :: p) :: ps

/-- Model of Go `strings.Split s sep`.  An empty separator splits the string
into its individual characters, as in Go. -/
def goSplit (s sep : String) : List String :=
  if sep.toList.isEmpty then s.toList.map (fun c => String.mk [c])
  else (goSplitCore sep.toList s.toList.length s.toList).map (fun l => String.mk l)

/-- `Tag.Name`: returns the tag name. -/
def Tag.Name (t : Tag) : String := t.name

/-- `Tag.Values`: returns all values of the tag (the empty list for a label;
Go returns an empty slice there, which is the same list). -/
def Tag.Values (t : Tag) : List String := t.values

/-- `Tag.IsLabel`: `len(t.values) == 0`. -/
def Tag.IsLabel (t : Tag) : Bool := t.values.length == 0

/-- `Tag.IsSingleValue`, exactly as in the source: `len(t.values) == 0`
(the body is identical to `IsLabel`). -/
def Tag.IsSingleValue (t : Tag) : Bool := t.values.length == 0

/-- `Tag.IsMultiValue`: `len(t.values) > 1`. -/
def Tag.IsMultiValue (t : Tag) : Bool := decide (1 < t.values.length)

/-- `Tag.HasName`: `t.name == name`. -/
def Tag.HasName (t : Tag) (n : String) : Bool := t.name == n

/-- `Tag.HasValues`: true if some value of the tag occurs among the queried
values (`slices.ContainsFunc(t.Values(), … slices.Contains(values, value))`). -/
def Tag.HasValues (t : Tag) (vs : List String) : Bool :=
  t.Values.any (fun v => vs.contains v)

/-- `Tag.String`: a label prints as its name, otherwise
`name ++ ":" ++ join(values, ",")`. -/
def Tag.String (t : Tag) : String :=
  if t.IsLabel then t.name
  else t.name ++ ":" ++ String.intercalate "," t.Values

/-- `Parse`: split the input on `":"`; one part yields a label, two parts
yield a tag whose values come from `strings.Split(valuesSeparator,
nameValues[1])` — faithfully to the source, the constant `","` is the string
being split and the value part is the separator — and more parts are an
error. -/
def Parse (tag : String) : Except String Tag :=
  let nameValues := goSplit tag ":"
  match nameValues with
  | [n] => .ok { name := n, values := [] }
  | [n, rest] => .ok { name := n, values := goSplit "," rest }
  | _ => .error ("invalid format: " ++ tag ++ " (valid format: name[:value,...])")

/-- `New`: reject an empty or all-whitespace name; collect the values into a
set (the Go code keys a map by value), delete the all-whitespace ones, and
return the remaining values.  Go map iteration order is unspecified, so the
model takes `List.dedup` followed by the blank-filter as its deterministic
representative. -/
def New (name : String) (values : List String) : Except String Tag :=
  if trimSpace name == "" then .error "name required"
  else .ok { name := name, values := (values.dedup).filter (fun v => trimSpace v != "") }

/-- `NewLabel`: `New(name)` with no values. -/
def NewLabel (name : String) : Except String Tag := New name []

/-- `NewSingleValue`: `New(name, value)`, then fail if no value survived. -/
def NewSingleValue (name value : String) : Except String Tag :=
  match New name [value] with
  | .error e => .error e
  | .ok tag => if tag.Values.length == 0 then .error "value required" else .ok tag

/-- `NewMultiValue`: `New(name, values...)`, then fail unless at least two
unique values survived. -/
def NewMultiValue (name : String) (values : List String) : Except String Tag :=
  match New name values with
  | .error e => .error e
  | .ok tag =>
    if tag.Values.length < 2 then .error "at least two unique values required"
    else .ok tag

/-- Insertion into the name-keyed mapping: replace the value when the key is
present, append a fresh entry otherwise. -/
def mapInsert : List (String × Tag) → String → Tag → List (String × Tag)
  | [], k, v => [(k, v)]
  | (k2, v2) :: rest, k, v =>
    if k2 == k then (k, v) :: rest else (k2, v2) :: mapInsert rest k v

/-- Deletion from the name-keyed mapping (`delete(g.tags, k)`). -/
def mapDelete (m : List (String × Tag)) (k : String) : List (String × Tag) :=
  m.filter (fun p => p.1 != k)

/-- `TagGroup.Name`: returns the group name. -/
def TagGroup.Name (g : TagGroup) : String := g.name

/-- `TagGroup.Rename`: reject an empty or all-whitespace name, otherwise
overwrite the group name. -/
def TagGroup.Rename (g : TagGroup) (newName : String) : Except String TagGroup :=
  if trimSpace newName == "" then .error "name required"
  else .ok { g with name := newName }

/-- `TagGroup.Tags`: `maps.Values(g.tags)` — the member tags, in the model's
deterministic iteration order. -/
def TagGroup.Tags (g : TagGroup) : List Tag := g.tags.map Prod.snd

/-- `TagGroup.Add`: upsert each tag under its name, in order. -/
def TagGroup.Add (g : TagGroup) (ts : List Tag) : TagGroup :=
  ts.foldl (fun st t => { st with tags := mapInsert st.tags t.name t }) g

/-- `TagGroup.FindFunc`: the members satisfying the predicate, in iteration
order. -/
def TagGroup.FindFunc (g : TagGroup) (fn : Tag → Bool) : List Tag :=
  g.Tags.filter fn

/-- `TagGroup.Contains`: collect the members that agree with some supplied
tag on both name and value list, and compare the count with the number of
supplied tags (`len(tags) == len(found)`). -/
def TagGroup.Contains (g : TagGroup) (ts : List Tag) : Bool :=
  let found := g.FindFunc (fun tag1 =>
    ts.any (fun tag2 => tag1.name == tag2.name && tag1.Values == tag2.Values))
  ts.length == found.length

/-- `TagGroup.FindNames`: members whose name occurs among the given names. -/
def TagGroup.FindNames (g : TagGroup) (names : List String) : List Tag :=
  g.FindFunc (fun tag => names.contains tag.Name)

/-- `TagGroup.ContainsNames`: `len(names) == len(g.FindNames(names...))`. -/
def TagGroup.ContainsNames (g : TagGroup) (names : List String) : Bool :=
  names.length == (g.FindNames names).length

/-- `TagGroup.FindValues`: members intersecting the given value set. -/
def TagGroup.FindValues (g : TagGroup) (values : List String) : List Tag :=
  g.FindFunc (fun tag => tag.HasValues values)

/-- `TagGroup.ContainsFunc`: some member satisfies the predicate. -/
def TagGroup.ContainsFunc (g : TagGroup) (fn : Tag → Bool) : Bool :=
  (g.FindFunc fn).length != 0

/-- `TagGroup.ContainsValues`: some member intersects the given value set. -/
def TagGroup.ContainsValues (g : TagGroup) (values : List String) : Bool :=
  g.ContainsFunc (fun tag => tag.HasValues values)

/-- `RemoveFunc`, generalized to a predicate that may read the current group
state: the Go loop ranges over the snapshot slice `g.Tags()` while deleting
from the live map, and the closure that `Remove` passes in reads the live
group through the captured pointer. -/
def TagGroup.RemoveFuncSt (g : TagGroup) (fn : TagGroup → Tag → Bool) : TagGroup :=
  g.Tags.foldl
    (fun st t => if fn st t then { st with tags := mapDelete st.tags t.name } else st) g

/-- `TagGroup.RemoveFunc`: remove the members satisfying the (pure)
predicate. -/
def TagGroup.RemoveFunc (g : TagGroup) (fn : Tag → Bool) : TagGroup :=
  g.RemoveFuncSt (fun _ t => fn t)

/-- `TagGroup.Remove`, faithfully to the source: the parameter of the inner
closure shadows the member tag, so the predicate ignores the member under
test and only asks whether some supplied tag is contained — with the full
name-and-values check of `Contains` — in the current group state. -/
def TagGroup.Remove (g : TagGroup) (ts : List Tag) : TagGroup :=
  g.RemoveFuncSt (fun st _tag => ts.any (fun tag => st.Contains [tag]))

/-- `TagGroup.RemoveNames`: remove members whose name occurs among the given
names. -/
def TagGroup.RemoveNames (g : TagGroup) (names : List String) : TagGroup :=
  g.RemoveFunc (fun tag => names.contains tag.Name)

/-- `TagGroup.RemoveValues`: remove members intersecting the given value
set. -/
def TagGroup.RemoveValues (g : TagGroup) (values : List String) : TagGroup :=
  g.RemoveFunc (fun tag => tag.HasValues values)

/-- `TagGroup.SortFunc`: the source calls `slices.SortStableFunc(g.Tags(),
fn)`, which sorts the fresh slice returned by `Tags()`; the group's mapping
is never touched, so the group state is returned unchanged. -/
def TagGroup.SortFunc (g : TagGroup) (_fn : Tag → Tag → Bool) : TagGroup := g

/-- `TagGroup.SortNames`: `SortFunc` with lexicographic comparison of names,
descending when `desc` is set. -/
def TagGroup.SortNames (g : TagGroup) (desc : Bool) : TagGroup :=
  g.SortFunc (fun tag1 tag2 =>
    if desc then decide (tag2.Name < tag1.Name) else decide (tag1.Name < tag2.Name))

/-- `NewGroup`: start from the zero group, `Rename` it (rejecting blank
names), then initialize the mapping and `Add` the given tags. -/
def NewGroup (name : String) (ts : List Tag) : Except String TagGroup :=
  match TagGroup.Rename { name := "", tags := [] } name with
  | .error e => .error e
  | .ok group => .ok (group.Add ts)

/-- Well-formedness of a group's mapping: the keys are pairwise distinct and
every entry is keyed by its tag's name.  This is automatic for Go maps and
is the stated group invariant. -/
def TagGroup.WF (g : TagGroup) : Prop :=
  (g.tags.map Prod.fst).Nodup ∧ ∀ p ∈ g.tags, p.1 = p.2.name

instance (g : TagGroup) : Decidable g.WF := by
  unfold TagGroup.WF; infer_instance

/-- Spec-side matching relation, written from the claim wording: two tags
match when their names are equal and their value sets are equal with the
order of values disregarded. -/
def specMatches (m t : Tag) : Prop :=
  m.name = t.name ∧ m.values.toFinset = t.values.toFinset

instance (m t : Tag) : Decidable (specMatches m t) := by
  unfold specMatches; infer_instance

/-- The single-value tag `x:1` used in the `Remove` scenario. -/
def xTagR : Tag := { name := "x", values := ["1"] }

/-- The single-value tag `y:2` used in the `Remove` scenario. -/
def yTagR : Tag := { name := "y", values := ["2"] }

/-- A group holding `y:2` and `x:1`, in that iteration order. -/
def gRemove : TagGroup := { name := "g", tags := [("y", yTagR), ("x", xTagR)] }

/-- The single-value tag `a:1` used in the sorting scenario. -/
def aTagS : Tag := { name := "a", values := ["1"] }

/-- The single-value tag `b:1` used in the sorting scenario. -/
def bTagS : Tag := { name := "b", values := ["1"] }

/-- A group holding `b:1` and `a:1`, in that (unsorted) iteration order. -/
def gSort : TagGroup := { name := "g", tags := [("b", bTagS), ("a", aTagS)] }

/-- The member tag `x:1,2` of the `Contains` scenario. -/
def xTagC : Tag := { name := "x", values := ["1", "2"] }

/-- The query tag `x:2,1`: same name and value set as `xTagC`, values in the
opposite order. -/
def qTagC : Tag := { name := "x", values := ["2", "1"] }

/-- A group holding only `x:1,2`. -/
def gContains : TagGroup := { name := "g", tags := [("x", xTagC)] }

/-- The tag `x:1` of the last-write-wins scenario. -/
def t1W : Tag := { name := "x", values := ["1"] }

/-- The tag `x:2` of the last-write-wins scenario: same name as `t1W`. -/
def t2W : Tag := { name := "x", values := ["2"] }

/-- A well-formed group holding the label `y`, used as the starting state of
the last-write-wins scenario. -/
def gW : TagGroup := { name := "g", tags := [("y", { name := "y", values := [] })] }

/-- A well-formed group holding the label `n`, used in the
`ContainsNames` duplicate-name scenario. -/
def gN : TagGroup := { name := "g", tags := [("n", { name := "n", values := [] })] }

end Tags

namespace Tags

/-- C1: the claim says `Remove(ts)` removes exactly the members equal (by
name and values, as in `Contains`) to some supplied tag.  The code does not:
the shadowed closure parameter makes the removal predicate independent of
the member under test, so once some supplied tag is contained in the group
every member encountered is deleted.  Here the group holds `y:2` and `x:1`
(iterated in that order) and `Remove` is called with `x:1` alone: `y:2`
matches no supplied tag, yet the group ends up empty. -/
theorem Remove_deletes_unrelated_member :
    NewGroup "g" [yTagR, xTagR] = .ok gRemove ∧
    yTagR.name ≠ xTagR.name ∧ yTagR ≠ xTagR ∧
    (gRemove.Remove [xTagR]).Tags = [] := by
  refine ⟨rfl, by decide, by decide, rfl⟩

/-- C2: the round-trip fails for single-value (and multi-value) tags:
`NewSingleValue "s" "v"` builds the tag `s:v`, whose string form is
`"s:v"`, but `Parse "s:v"` returns values `[","]` — the source calls
`strings.Split` with its arguments swapped — so the parsed value set differs
from `{"v"}`. -/
theorem Parse_String_roundtrip_fails :
    NewSingleValue "s" "v" = .ok { name := "s", values := ["v"] } ∧
    Tag.String { name := "s", values := ["v"] } = "s:v" ∧
    Parse "s:v" = .ok { name := "s", values := [","] } ∧
    ([","] : List String).toFinset ≠ (["v"] : List String).toFinset := by
  refine ⟨rfl, rfl, rfl, by decide⟩

/-- C3: the claim says `Parse "a:b,c"` yields the values `"b"` and `"c"`;
because the source splits the constant `","` by the value part instead of
the value part by `","`, it actually yields the single value `","`. -/
theorem Parse_one_colon_values_swapped :
    Parse "a:b,c" = .ok { name := "a", values := [","] } ∧
    ([","] : List String) ≠ ["b", "c"] := by
  refine ⟨rfl, by decide⟩

/-- C5: the claim (with the code's own doc comment) says `IsSingleValue` is
true for a tag with exactly one value; the code tests `len(values) == 0`
(the same body as `IsLabel`), so on the single-value tag `x:a` it returns
false. -/
theorem IsSingleValue_false_on_one_value :
    NewSingleValue "x" "a" = .ok { name := "x", values := ["a"] } ∧
    Tag.IsSingleValue { name := "x", values := ["a"] } = false ∧
    Tag.IsLabel { name := "x", values := ["a"] } = false ∧
    Tag.IsSingleValue { name := "x", values := [] } = true := by
  refine ⟨rfl, rfl, rfl, rfl⟩

/-- C6: the claim says that after `SortNames(false)` a subsequent `Tags()`
lists the members in ascending name order.  The code sorts the fresh slice
returned by `Tags()` and discards it, leaving the group untouched: on a
group iterating as `[b:1, a:1]` the listing after the sort is still
`[b:1, a:1]`, not `[a:1, b:1]`. -/
theorem SortNames_does_not_persist_order :
    NewGroup "g" [bTagS, aTagS] = .ok gSort ∧
    gSort.SortNames false = gSort ∧
    (gSort.SortNames false).Tags = [bTagS, aTagS] ∧
    aTagS.name < bTagS.name ∧
    (gSort.SortNames false).Tags ≠ [aTagS, bTagS] := by
  refine ⟨rfl, rfl, rfl, ?_, by decide⟩
  show ("a" : String) < "b"
  rw [String.lt_iff_toList_lt]
  decide

/-- C4 counterexample: the query tag `x:2,1` matches the member `x:1,2` by
name and by value set with order disregarded, yet `Contains` returns false
because the code compares the value lists with order-sensitive slice
equality. -/
theorem Contains_order_sensitive_cex :
    NewGroup "g" [xTagC] = .ok gContains ∧
    specMatches xTagC qTagC ∧
    gContains.Contains [qTagC] = false := by
  refine ⟨rfl, by decide, rfl⟩

/-- C8 counterexample: the claim says `New` succeeds for every non-empty
name, but the all-whitespace name `" "` is non-empty and is rejected. -/
theorem New_whitespace_name_cex :
    (" " : String) ≠ "" ∧ New " " ["a"] = .error "name required" := by
  refine ⟨by decide, rfl⟩

end Tags

namespace Tags

/-- `goSplitCore` never returns the empty list: every branch produces at
least one part. -/
theorem goSplitCore_ne_nil (sep : List Char) (fuel : Nat) (l : List Char) :
    goSplitCore sep fuel l ≠ [] := by
  match fuel, l with
  | _, [] => simp [goSplitCore]
  | 0, _ :: _ => simp [goSplitCore]
  | fuel + 1, c :: cs =>
    simp only [goSplitCore]
    split
    · simp
    · split <;> simp

/-- With separator `":"` and enough fuel, the number of parts is the number
of colons plus one. -/
theorem goSplitCore_colon_length :
    ∀ (fuel : Nat) (l : List Char), l.length ≤ fuel →
      (goSplitCore [':'] fuel l).length = l.count ':' + 1 := by
  intro fuel
  induction fuel with
  | zero =>
    intro l hl
    have hnil : l = [] := List.eq_nil_of_length_eq_zero (Nat.le_zero.mp hl)
    subst hnil
    simp [goSplitCore]
  | succ n ih =>
    intro l hl
    match l with
    | [] => simp [goSplitCore]
    | c :: cs =>
      have hcs : cs.length ≤ n := by simpa using hl
      by_cases hc : c = ':'
      · subst hc
        have hpre : [':'].isPrefixOf (':' :: cs) = true := by
          simp [List.isPrefixOf]
        simp only [goSplitCore, hpre, if_true]
        simp [ih cs hcs, List.count_cons]
      · have hpre : [':'].isPrefixOf (c :: cs) = false := by
          simp [List.isPrefixOf]
          exact fun h => absurd h.symm hc
        simp only [goSplitCore, hpre, Bool.false_eq_true, if_false]
        obtain ⟨p, ps, hps⟩ :=
          List.exists_cons_of_ne_nil (goSplitCore_ne_nil [':'] n cs)
        rw [hps]
        have hlen : (goSplitCore [':'] n cs).length = cs.count ':' + 1 := ih cs hcs
        rw [hps] at hlen
        simp only [List.length_cons] at hlen ⊢
        rw [hlen]
        simp [List.count_cons, hc]

/-- With separator `":"`, a colon-free input is returned as the single
part. -/
theorem goSplitCore_colon_of_no_colon :
    ∀ (fuel : Nat) (l : List Char), l.length ≤ fuel →
      l.count ':' = 0 → goSplitCore [':'] fuel l = [l] := by
  intro fuel
  induction fuel with
  | zero =>
    intro l hl _
    have hnil : l = [] := List.eq_nil_of_length_eq_zero (Nat.le_zero.mp hl)
    subst hnil
    simp [goSplitCore]
  | succ n ih =>
    intro l hl hcount
    match l with
    | [] => simp [goSplitCore]
    | c :: cs =>
      have hcs : cs.length ≤ n := by simpa using hl
      have hc : c ≠ ':' := by
        intro h
        subst h
        simp [List.count_cons] at hcount
      have hpre : [':'].isPrefixOf (c :: cs) = false := by
        simp [List.isPrefixOf]
        exact fun h => absurd h.symm hc
      have hcount2 : cs.count ':' = 0 := by
        simp [List.count_cons, hc] at hcount
        omega
      simp only [goSplitCore, hpre, Bool.false_eq_true, if_false]
      rw [ih cs hcs hcount2]

/-- The number of parts produced by splitting on `":"` is the number of
colons plus one. -/
theorem goSplit_colon_length (s : String) :
    (goSplit s ":").length = s.toList.count ':' + 1 := by
  have h := goSplitCore_colon_length s.toList.length s.toList le_rfl
  show ((goSplitCore [':'] s.toList.length s.toList).map (fun l => String.mk l)).length
      = s.toList.count ':' + 1
  simpa using h

/-- Splitting a colon-free string on `":"` returns the string itself as the
single part. -/
theorem goSplit_colon_of_no_colon (s : String) (h : s.toList.count ':' = 0) :
    goSplit s ":" = [s] := by
  have h2 := goSplitCore_colon_of_no_colon s.toList.length s.toList le_rfl h
  show (goSplitCore [':'] s.toList.length s.toList).map (fun l => String.mk l) = [s]
  rw [h2]
  simp

/-- C7: `Parse` fails exactly on inputs with two or more colons; inputs with
at most one colon are accepted, and a colon-free input parses to a label
whose name is the whole input. -/
theorem Parse_error_iff_two_or_more_colons (s : String) :
    (2 ≤ s.toList.count ':' ↔ ∃ e, Parse s = .error e) ∧
    (s.toList.count ':' ≤ 1 → ∃ t, Parse s = .ok t) ∧
    (s.toList.count ':' = 0 → Parse s = .ok { name := s, values := [] }) := by
  have hL : (goSplit s ":").length = s.toList.count ':' + 1 := goSplit_colon_length s
  cases hk : s.toList.count ':' with
  | zero =>
    have hsplit : goSplit s ":" = [s] := goSplit_colon_of_no_colon s hk
    have hP : Parse s = .ok { name := s, values := [] } := by
      simp only [Parse, hsplit]
    refine ⟨⟨fun h => by omega, fun ⟨e, he⟩ => by simp [hP] at he⟩,
      fun _ => ⟨_, hP⟩, fun _ => hP⟩
  | succ k1 =>
    cases k1 with
    | zero =>
      rw [hk] at hL
      obtain ⟨a, b, hab⟩ := List.length_eq_two.mp hL
      have hP : Parse s = .ok { name := a, values := goSplit "," b } := by
        simp only [Parse, hab]
      refine ⟨⟨fun h => by omega, fun ⟨e, he⟩ => by simp [hP] at he⟩,
        fun _ => ⟨_, hP⟩, fun h => by omega⟩
    | succ k2 =>
      rw [hk] at hL
      rcases hLs : goSplit s ":" with _ | ⟨a, _ | ⟨b, _ | ⟨c, rest⟩⟩⟩ <;>
          rw [hLs] at hL <;>
          simp only [List.length_nil, List.length_cons] at hL
      · omega
      · omega
      · omega
      · have hP : Parse s =
            .error ("invalid format: " ++ s ++ " (valid format: name[:value,...])") := by
          simp only [Parse, hLs]
        exact ⟨⟨fun _ => ⟨_, hP⟩, fun _ => by omega⟩,
          fun h => by omega, fun h => by omega⟩

/-- Witness for C7 at concrete inputs: `"a:b:c"` (two colons) is rejected,
`"a:b"` (one colon) is accepted, and `"ab"` (no colon) parses to the label
`ab`. -/
theorem Parse_error_iff_two_or_more_colons_witness :
    (∃ e, Parse "a:b:c" = .error e) ∧ (∃ t, Parse "a:b" = .ok t) ∧
    Parse "ab" = .ok { name := "ab", values := [] } :=
  ⟨(Parse_error_iff_two_or_more_colons "a:b:c").1.mp (by decide),
   (Parse_error_iff_two_or_more_colons "a:b").2.1 (by decide),
   (Parse_error_iff_two_or_more_colons "ab").2.2 (by decide)⟩

end Tags

namespace Tags

/-- C8 amended: for every name that is not empty or all-whitespace (the
counterexample `New " " …` shows plain non-emptiness does not suffice),
`New` succeeds with the given name, pairwise distinct values, and value set
exactly the set of non-blank input values. -/
theorem New_value_set (name : String) (vs : List String)
    (h : trimSpace name ≠ "") :
    ∃ t, New name vs = .ok t ∧ t.name = name ∧ t.values.Nodup ∧
      t.values.toFinset = (vs.filter (fun v => trimSpace v != "")).toFinset := by
  have hb : (trimSpace name == "") = false := by
    simpa using h
  refine ⟨{ name := name, values := (vs.dedup).filter (fun v => trimSpace v != "") },
    ?_, rfl, ?_, ?_⟩
  · simp only [New, hb, Bool.false_eq_true, if_false]
  · exact (List.nodup_dedup vs).filter _
  · show ((vs.dedup).filter (fun v => trimSpace v != "")).toFinset
        = (vs.filter (fun v => trimSpace v != "")).toFinset
    rw [List.toFinset_filter, List.toFinset_filter]
    congr 1
    ext a
    simp [List.mem_dedup]

/-- Witness for C8 at the claim's particular input: `New "x" ["a","a","b",""]`
succeeds with value set exactly the two distinct non-blank values. -/
theorem New_value_set_witness :
    ∃ t, New "x" ["a", "a", "b", ""] = .ok t ∧ t.name = "x" ∧ t.values.Nodup ∧
      t.values.toFinset =
        (["a", "a", "b", ""].filter (fun v => trimSpace v != "")).toFinset :=
  New_value_set "x" ["a", "a", "b", ""] (by decide)

end Tags

namespace Tags

/-- The member test used by `Contains` — equal names and equal value
lists — holds exactly when the two tags are equal. -/
theorem contains_match_iff_eq (m t : Tag) :
    ((m.name == t.name && m.Values == t.Values) = true) ↔ m = t := by
  cases m; cases t
  simp [Tag.Values, Tag.mk.injEq]

/-- C4 amended: on a group whose member list has no duplicates (true of
every group built from the name-keyed mapping), `Contains ts` is true iff
the supplied tags are pairwise distinct and each of them occurs in the
group with the same name and the same value list, order of values
significant.  The original claim fails in both respects: value-list
equality is order-sensitive (see the counterexample) and duplicated
supplied tags make the count comparison fail. -/
theorem Contains_iff_nodup_and_mem (g : TagGroup) (ts : List Tag)
    (h : g.Tags.Nodup) :
    g.Contains ts = true ↔ ts.Nodup ∧ ∀ t ∈ ts, t ∈ g.Tags := by
  have hpred : ∀ m ∈ g.Tags,
      (ts.any fun t => m.name == t.name && m.Values == t.Values) = decide (m ∈ ts) := by
    intro m _
    rw [Bool.eq_iff_iff]
    simp only [List.any_eq_true, decide_eq_true_eq]
    constructor
    · rintro ⟨t, ht, hmt⟩
      exact (contains_match_iff_eq m t).mp hmt ▸ ht
    · intro hm
      exact ⟨m, hm, by simp [Tag.Values]⟩
  have hContains : g.Contains ts
      = (ts.length == (g.Tags.filter (fun m => decide (m ∈ ts))).length) := by
    show (ts.length == (g.Tags.filter
        (fun tag1 => ts.any fun tag2 =>
          tag1.name == tag2.name && tag1.Values == tag2.Values)).length)
      = (ts.length == (g.Tags.filter (fun m => decide (m ∈ ts))).length)
    rw [List.filter_congr hpred]
  have hnd : (g.Tags.filter (fun m => decide (m ∈ ts))).Nodup := h.filter _
  have hcard : (g.Tags.filter (fun m => decide (m ∈ ts))).length
      = (g.Tags.toFinset ∩ ts.toFinset).card := by
    rw [← List.toFinset_card_of_nodup hnd]
    congr 1
    ext a
    simp [List.mem_filter]
  rw [hContains, beq_iff_eq, hcard]
  constructor
  · intro hlen
    have h1 : (g.Tags.toFinset ∩ ts.toFinset).card ≤ ts.toFinset.card :=
      Finset.card_le_card Finset.inter_subset_right
    have h2 : ts.toFinset.card ≤ ts.length := List.toFinset_card_le ts
    have hceq : ts.toFinset.card = ts.length := by omega
    have hdl : ts.dedup.length = ts.length := by
      rw [← List.card_toFinset]; exact hceq
    have hndts : ts.Nodup := by
      rw [← List.dedup_eq_self]
      exact (List.dedup_sublist ts).eq_of_length hdl
    have hinter : g.Tags.toFinset ∩ ts.toFinset = ts.toFinset :=
      Finset.eq_of_subset_of_card_le Finset.inter_subset_right (by omega)
    refine ⟨hndts, fun t ht => ?_⟩
    have hmem2 : t ∈ g.Tags.toFinset ∩ ts.toFinset := by
      rw [hinter]; exact List.mem_toFinset.mpr ht
    exact List.mem_toFinset.mp (Finset.mem_of_mem_inter_left hmem2)
  · rintro ⟨hndts, hmem⟩
    have hsub : ts.toFinset ⊆ g.Tags.toFinset := fun a ha =>
      List.mem_toFinset.mpr (hmem a (List.mem_toFinset.mp ha))
    rw [Finset.inter_eq_right.mpr hsub]
    exact (List.toFinset_card_of_nodup hndts).symm

/-- Witness for the amended C4 on a concrete group: the singleton query
`x:1,2` is duplicate-free and occurs in the group, so `Contains` holds. -/
theorem Contains_iff_nodup_and_mem_witness :
    gContains.Contains [xTagC] = true ∧ [xTagC].Nodup ∧ xTagC ∈ gContains.Tags :=
  ⟨(Contains_iff_nodup_and_mem gContains [xTagC] (by decide)).mpr
      ⟨by decide, by decide⟩,
    by decide, by decide⟩

end Tags

namespace Tags

/-- Every entry of `mapInsert m k v` is the inserted pair or an entry of
`m`. -/
theorem mem_mapInsert :
    ∀ (m : List (String × Tag)) (k : String) (v : Tag) (p : String × Tag),
      p ∈ mapInsert m k v → p = (k, v) ∨ p ∈ m := by
  intro m k v
  induction m with
  | nil =>
    intro p hp
    simp [mapInsert] at hp
    simp [hp]
  | cons q rest ih =>
    intro p hp
    obtain ⟨k2, v2⟩ := q
    simp only [mapInsert] at hp
    by_cases hk : k2 = k
    · rw [if_pos (by simp [hk])] at hp
      rcases List.mem_cons.mp hp with h1 | h1
      · exact Or.inl h1
      · exact Or.inr (List.mem_cons_of_mem _ h1)
    · rw [if_neg (by simp [hk])] at hp
      rcases List.mem_cons.mp hp with h1 | h1
      · exact Or.inr (by simp [h1])
      · rcases ih p h1 with h2 | h2
        · exact Or.inl h2
        · exact Or.inr (List.mem_cons_of_mem _ h2)

/-- A key of `mapInsert m k v` is a key of `m` or the inserted key. -/
theorem mem_keys_mapInsert (m : List (String × Tag)) (k : String) (v : Tag)
    (a : String) (ha : a ∈ (mapInsert m k v).map Prod.fst) :
    a ∈ m.map Prod.fst ∨ a = k := by
  obtain ⟨p, hp, hpa⟩ := List.mem_map.mp ha
  rcases mem_mapInsert m k v p hp with h1 | h1
  · right
    rw [← hpa, h1]
  · left
    exact List.mem_map.mpr ⟨p, h1, hpa⟩

/-- `mapInsert` preserves distinctness of the keys. -/
theorem keys_nodup_mapInsert (m : List (String × Tag)) (k : String) (v : Tag)
    (h : (m.map Prod.fst).Nodup) : ((mapInsert m k v).map Prod.fst).Nodup := by
  induction m with
  | nil => simp [mapInsert]
  | cons q rest ih =>
    obtain ⟨k2, v2⟩ := q
    simp only [List.map_cons, List.nodup_cons] at h
    obtain ⟨hk2, hrest⟩ := h
    simp only [mapInsert]
    by_cases hk : k2 = k
    · rw [if_pos (by simp [hk])]
      simp only [List.map_cons, List.nodup_cons]
      exact ⟨by rw [← hk]; exact hk2, hrest⟩
    · rw [if_neg (by simp [hk])]
      simp only [List.map_cons, List.nodup_cons]
      refine ⟨fun hmem => ?_, ih hrest⟩
      rcases mem_keys_mapInsert rest k v k2 hmem with h2 | h2
      · exact hk2 h2
      · exact hk h2

/-- Inserting a tag under its own name preserves the group invariant. -/
theorem WF_insert (g : TagGroup) (t : Tag) (h : g.WF) :
    TagGroup.WF { g with tags := mapInsert g.tags t.name t } := by
  obtain ⟨h1, h2⟩ := h
  refine ⟨keys_nodup_mapInsert _ _ _ h1, fun p hp => ?_⟩
  rcases mem_mapInsert _ _ _ p hp with h3 | h3
  · simp [h3]
  · exact h2 p h3

/-- `Add` preserves the group invariant. -/
theorem WF_Add (g : TagGroup) (ts : List Tag) (h : g.WF) : (g.Add ts).WF := by
  induction ts generalizing g with
  | nil => exact h
  | cons t rest ih =>
    exact ih { g with tags := mapInsert g.tags t.name t } (WF_insert g t h)

/-- Deleting a key preserves the group invariant. -/
theorem WF_delete (g : TagGroup) (k : String) (h : g.WF) :
    TagGroup.WF { g with tags := mapDelete g.tags k } := by
  obtain ⟨h1, h2⟩ := h
  refine ⟨?_, fun p hp => h2 p (List.mem_of_mem_filter hp)⟩
  exact List.Nodup.sublist ((List.filter_sublist _).map _) h1

/-- The removal loop — a fold of conditional deletions over the snapshot,
with a state-reading predicate — preserves the group invariant. -/
theorem WF_removal_foldl (l : List Tag) (fn : TagGroup → Tag → Bool) :
    ∀ (st : TagGroup), st.WF →
      (l.foldl (fun st t =>
        if fn st t then { st with tags := mapDelete st.tags t.name } else st) st).WF := by
  induction l with
  | nil => intro st h; exact h
  | cons t rest ih =>
    intro st h
    simp only [List.foldl_cons]
    by_cases hf : fn st t = true
    · rw [if_pos hf]
      exact ih _ (WF_delete st t.name h)
    · rw [if_neg hf]
      exact ih _ h

/-- `RemoveFuncSt` preserves the group invariant. -/
theorem WF_RemoveFuncSt (g : TagGroup) (fn : TagGroup → Tag → Bool) (h : g.WF) :
    (g.RemoveFuncSt fn).WF :=
  WF_removal_foldl g.Tags fn g h

/-- After inserting `v` under its own name into a well-formed mapping, the
members named `v.name` are exactly `[v]`. -/
theorem filter_name_mapInsert :
    ∀ (m : List (String × Tag)) (v : Tag),
      (m.map Prod.fst).Nodup → (∀ p ∈ m, p.1 = p.2.name) →
      ((mapInsert m v.name v).map Prod.snd).filter (fun t => t.name == v.name) = [v] := by
  intro m v
  induction m with
  | nil =>
    intro _ _
    simp [mapInsert]
  | cons q rest ih =>
    intro h1 h2
    obtain ⟨k2, v2⟩ := q
    simp only [List.map_cons, List.nodup_cons] at h1
    obtain ⟨hk2, hrest⟩ := h1
    have hkey : k2 = v2.name := h2 (k2, v2) (by simp)
    simp only [mapInsert]
    by_cases hk : k2 = v.name
    · rw [if_pos (by simp [hk])]
      simp only [List.map_cons]
      rw [List.filter_cons_of_pos (by simp)]
      have hrest_nil : (rest.map Prod.snd).filter (fun t => t.name == v.name) = [] := by
        rw [List.filter_eq_nil_iff]
        intro t ht
        obtain ⟨p, hp, hpt⟩ := List.mem_map.mp ht
        have hpn : p.1 = t.name := by rw [h2 p (List.mem_cons_of_mem _ hp), hpt]
        have hmemk : t.name ∈ rest.map Prod.fst := List.mem_map.mpr ⟨p, hp, hpn⟩
        simp only [beq_iff_eq]
        intro hc
        rw [hc, ← hk] at hmemk
        exact hk2 hmemk
      rw [hrest_nil]
    · rw [if_neg (by simp [hk])]
      simp only [List.map_cons]
      rw [List.filter_cons_of_neg (by simp [← hkey, hk])]
      exact ih hrest (fun p hp => h2 p (List.mem_cons_of_mem _ hp))

/-- Adding two tags with the same name leaves the second as the only
member under that name — last write wins — and in particular every member
still carrying the first tag's name is the second tag. -/
theorem Add_last_write_wins (g : TagGroup) (T1 T2 : Tag) (h : g.WF)
    (hn : T1.name = T2.name) :
    (g.Add [T1, T2]).Tags.filter (fun t => t.name == T2.name) = [T2] ∧
    ∀ t ∈ (g.Add [T1, T2]).Tags, t.name = T1.name → t = T2 := by
  have h1 : TagGroup.WF { g with tags := mapInsert g.tags T1.name T1 } := WF_insert g T1 h
  have hfilter : (g.Add [T1, T2]).Tags.filter (fun t => t.name == T2.name) = [T2] := by
    show ((mapInsert (mapInsert g.tags T1.name T1) T2.name T2).map Prod.snd).filter
        (fun t => t.name == T2.name) = [T2]
    exact filter_name_mapInsert _ T2 h1.1 h1.2
  refine ⟨hfilter, fun t ht htn => ?_⟩
  have hmem : t ∈ (g.Add [T1, T2]).Tags.filter (fun t => t.name == T2.name) :=
    List.mem_filter.mpr ⟨ht, by simp [htn, hn]⟩
  rw [hfilter] at hmem
  simpa using hmem

/-- `NewGroup` establishes the group invariant. -/
theorem WF_NewGroup (name : String) (ts : List Tag) (g2 : TagGroup)
    (h : NewGroup name ts = .ok g2) : g2.WF := by
  simp only [NewGroup, TagGroup.Rename] at h
  by_cases hn : (trimSpace name == "") = true
  · rw [if_pos hn] at h
    exact absurd h (by simp)
  · rw [if_neg hn] at h
    simp only [Except.ok.injEq] at h
    rw [← h]
    exact WF_Add _ ts ⟨by simp, by simp⟩

/-- C9: every group reachable by the library operations has at most one
member per name.  `NewGroup` establishes the key-uniqueness invariant, and
`Add`, the whole `Remove` family and the sort operations preserve it;
moreover adding two tags of the same name leaves exactly the second one
under that name (last write wins). -/
theorem group_per_name_uniqueness (g : TagGroup) (gname : String)
    (ts : List Tag) (ns vs : List String) (fn : Tag → Bool) (desc : Bool)
    (T1 T2 : Tag) (h : g.WF) (hn : T1.name = T2.name) :
    (∀ g2, NewGroup gname ts = .ok g2 → g2.WF) ∧
    (g.Add ts).WF ∧ (g.Remove ts).WF ∧ (g.RemoveNames ns).WF ∧
    (g.RemoveValues vs).WF ∧ (g.RemoveFunc fn).WF ∧ (g.SortNames desc).WF ∧
    (g.Add [T1, T2]).Tags.filter (fun t => t.name == T2.name) = [T2] ∧
    (∀ t ∈ (g.Add [T1, T2]).Tags, t.name = T1.name → t = T2) :=
  ⟨fun g2 hg2 => WF_NewGroup gname ts g2 hg2, WF_Add g ts h,
    WF_RemoveFuncSt g _ h, WF_RemoveFuncSt g _ h, WF_RemoveFuncSt g _ h,
    WF_RemoveFuncSt g _ h, h, (Add_last_write_wins g T1 T2 h hn).1,
    (Add_last_write_wins g T1 T2 h hn).2⟩

/-- Witness for C9: on a concrete well-formed group, adding `x:1` then
`x:2` preserves the invariant and leaves `x:2` as the only member named
`x`. -/
theorem group_per_name_uniqueness_witness :
    (gW.Add [t1W, t2W]).WF ∧
    (gW.Add [t1W, t2W]).Tags.filter (fun t => t.name == t2W.name) = [t2W] := by
  have h := group_per_name_uniqueness gW "g" [t1W, t2W] ["n"] ["v"]
    (fun _ => true) false t1W t2W (by decide) (by decide)
  exact ⟨h.2.1, h.2.2.2.2.2.2.2.1⟩

end Tags

namespace Tags

/-- A duplicate-free list whose elements are all equal to `n` has at most
one element. -/
theorem length_le_one_of_nodup_const (l : List String) (n : String)
    (hnd : l.Nodup) (hall : ∀ a ∈ l, a = n) : l.length ≤ 1 := by
  match l with
  | [] => simp
  | [a] => simp
  | a :: b :: rest =>
    have ha : a = n := hall a (by simp)
    have hb : b = n := hall b (by simp)
    rw [List.nodup_cons] at hnd
    exact absurd (by simp [ha, hb] : a ∈ b :: rest) hnd.1

/-- In a well-formed group the member names are pairwise distinct. -/
theorem names_nodup_of_WF (g : TagGroup) (h : g.WF) :
    (g.Tags.map Tag.name).Nodup := by
  have heq : g.Tags.map Tag.name = g.tags.map Prod.fst := by
    show (g.tags.map Prod.snd).map Tag.name = g.tags.map Prod.fst
    rw [List.map_map]
    exact List.map_congr_left (fun p hp => (h.2 p hp).symm)
  rw [heq]
  exact h.1

/-- C10: `ContainsNames` compares the number of supplied names — duplicates
included — with the number of members whose name occurs among them, so on a
group with a member named `n` the call `ContainsNames [n, n]` is false even
though every supplied name is present. -/
theorem ContainsNames_counts_duplicates (g : TagGroup) (ns : List String)
    (n : String) (m : Tag) (h : g.WF) (hm : m ∈ g.Tags) (hname : m.name = n) :
    (g.ContainsNames ns = true ↔ ns.length = (g.FindNames ns).length) ∧
    g.ContainsNames [n, n] = false := by
  constructor
  · show (ns.length == (g.FindNames ns).length) = true ↔ _
    exact beq_iff_eq
  · have hfilter : g.FindNames [n, n] = g.Tags.filter (fun t => t.name == n) := by
      apply List.filter_congr
      intro t _
      show ([n, n].contains t.Name) = (t.name == n)
      simp only [List.contains_cons, List.contains_nil, Bool.or_false, Bool.or_self]
      rfl
    have hnd : ((g.Tags.filter (fun t => t.name == n)).map Tag.name).Nodup :=
      List.Nodup.sublist ((List.filter_sublist _).map _) (names_nodup_of_WF g h)
    have hall : ∀ a ∈ (g.Tags.filter (fun t => t.name == n)).map Tag.name, a = n := by
      intro a ha
      obtain ⟨t, ht, hta⟩ := List.mem_map.mp ha
      have := (List.mem_filter.mp ht).2
      rw [← hta]
      exact beq_iff_eq.mp this
    have hle : (g.Tags.filter (fun t => t.name == n)).length ≤ 1 := by
      have := length_le_one_of_nodup_const _ n hnd hall
      simpa using this
    have hpos : 0 < (g.Tags.filter (fun t => t.name == n)).length := by
      have : m ∈ g.Tags.filter (fun t => t.name == n) :=
        List.mem_filter.mpr ⟨hm, by simp [hname]⟩
      exact List.length_pos.mpr (List.ne_nil_of_mem this)
    have hlen : (g.Tags.filter (fun t => t.name == n)).length = 1 := by omega
    show ([n, n].length == (g.FindNames [n, n]).length) = false
    rw [hfilter, hlen]
    rfl

/-- Witness for C10: the group holding only the label `n` contains a member
named `"n"`, `ContainsNames` agrees with the count comparison, and
`ContainsNames ["n", "n"]` is false. -/
theorem ContainsNames_counts_duplicates_witness :
    (gN.ContainsNames ["n"] = true ↔
      (["n"] : List String).length = (gN.FindNames ["n"]).length) ∧
    gN.ContainsNames ["n", "n"] = false :=
  ContainsNames_counts_duplicates gN ["n"] "n" { name := "n", values := [] }
    (by decide) (by decide) (by decide)

end Tags
